import Mathlib

/-!
Verification of the curated-game resolution pipeline of the PSP game explorer.
JS strings are modelled as `List Char`; machine numbers that stay small
nonnegative integers (lengths, distances, page numbers) are modelled as `Nat`.
-/

/-- Reference recursion for edit distance, peeling characters from the head.
Used only inside proofs; the embedded DP below is proved equal to it. -/
def levRec : List Char → List Char → Nat
  | [], ys => ys.length
  | _ :: xs, [] => xs.length + 1
  | x :: xs, y :: ys =>
    if x = y then levRec xs ys
    else 1 + min (levRec xs (y :: ys)) (min (levRec (x :: xs) ys) (levRec xs ys))
termination_by a b => (a.length, b.length)
decreasing_by all_goals simp_wf; omega

/-- Inner loop of levenshteinDistance (source lines 1035-1044): fills row j of the
matrix left to right.  `left` is the cell just written (matrix[j][i-1]), the list
argument is the remaining characters of `a`, and the third argument is the tail of
the previous row starting at matrix[j-1][i-1] (so its head is the diagonal cell and
the next element is the cell straight above).  Each produced cell is
min(left + 1, up + 1, diag + indicator), exactly the source recurrence
(deletion, insertion, substitution). -/
def levRowAux (bc : Char) : Nat → List Char → List Nat → List Nat
  | _, [], _ => []
  | _, _ :: _, [] => []
  | left, c :: cs, diag :: rest =>
    let up := rest.headD 0
    let v := min (min (left + 1) (up + 1)) (diag + (if c = bc then 0 else 1))
    v :: levRowAux bc v cs rest

/-- Outer loop of levenshteinDistance: one iteration per character of `b`,
starting each row j with matrix[j][0] = j (source line 1034). -/
def levRows (a : List Char) : List Char → Nat → List Nat → List Nat
  | [], _, row => row
  | bc :: bs, j, row => levRows a bs (j + 1) ((j + 1) :: levRowAux bc (j + 1) a row)

/-- levenshteinDistance(a, b), embedded from source lines 1031-1046: a DP matrix of
size (b.length+1) x (a.length+1); row 0 is 0..a.length (source line 1033); the
result is the bottom-right cell matrix[b.length][a.length]. -/
def levenshteinDistance (a b : List Char) : Nat :=
  (levRows a b 0 (List.range (a.length + 1))).getLastD 0

/-- Edits xs ys n holds when xs can be transformed into ys by n single-character
operations: keeping a character costs nothing, substituting, inserting or deleting
one character costs one.  This is the standard alignment formalization of the
minimum-edit-sequence notion. -/
inductive Edits : List Char → List Char → Nat → Prop where
  | nil : Edits [] [] 0
  | same (c : Char) {xs ys : List Char} {n : Nat} :
      Edits xs ys n → Edits (c :: xs) (c :: ys) n
  | sub {c d : Char} {xs ys : List Char} {n : Nat} (h : c ≠ d) :
      Edits xs ys n → Edits (c :: xs) (d :: ys) (n + 1)
  | ins (d : Char) {xs ys : List Char} {n : Nat} :
      Edits xs ys n → Edits xs (d :: ys) (n + 1)
  | del (c : Char) {xs ys : List Char} {n : Nat} :
      Edits xs ys n → Edits (c :: xs) ys (n + 1)

theorem levRec_nil_left (ys : List Char) : levRec [] ys = ys.length := by
  simp [levRec]

theorem levRec_cons_nil (x : Char) (xs : List Char) :
    levRec (x :: xs) [] = xs.length + 1 := by
  simp [levRec]

theorem levRec_nil_right (xs : List Char) : levRec xs [] = xs.length := by
  cases xs with
  | nil => simp [levRec]
  | cons x xs => simp [levRec]

theorem levRec_cons_cons (x y : Char) (xs ys : List Char) :
    levRec (x :: xs) (y :: ys) =
      if x = y then levRec xs ys
      else 1 + min (levRec xs (y :: ys)) (min (levRec (x :: xs) ys) (levRec xs ys)) := by
  simp [levRec]

/-- Changing one side of the pair by one head character changes levRec by at most
one, in both directions.  Proved by strong induction on the total length. -/
theorem levRec_adj :
    ∀ (N : Nat) (xs ys : List Char) (c : Char), xs.length + ys.length ≤ N →
      (levRec xs (c :: ys) ≤ levRec xs ys + 1) ∧ (levRec (c :: xs) ys ≤ levRec xs ys + 1) ∧
      (levRec xs ys ≤ levRec xs (c :: ys) + 1) ∧ (levRec xs ys ≤ levRec (c :: xs) ys + 1) := by
  intro N
  induction N with
  | zero =>
    intro xs ys c h
    have hx : xs = [] := by cases xs <;> simp_all
    have hy : ys = [] := by cases ys <;> simp_all
    subst hx; subst hy
    refine ⟨?_, ?_, ?_, ?_⟩ <;>
      simp [levRec_nil_left, levRec_cons_nil, levRec_nil_right]
  | succ N ih =>
    intro xs ys c h
    refine ⟨?_, ?_, ?_, ?_⟩
    · cases xs with
      | nil => simp [levRec_nil_left]
      | cons x xs =>
        have hlt : xs.length + ys.length ≤ N := by simp at h; omega
        rw [levRec_cons_cons]
        by_cases hxc : x = c
        · rw [if_pos hxc]
          subst hxc
          exact (ih xs ys x hlt).2.2.2
        · rw [if_neg hxc]
          have h1 : min (levRec xs (c :: ys)) (min (levRec (x :: xs) ys) (levRec xs ys)) ≤
              levRec (x :: xs) ys :=
            le_trans (min_le_right _ _) (min_le_left _ _)
          omega
    · cases ys with
      | nil => simp [levRec_nil_right, levRec_cons_nil]
      | cons y ys =>
        have hlt : xs.length + ys.length ≤ N := by simp at h; omega
        rw [levRec_cons_cons]
        by_cases hcy : c = y
        · rw [if_pos hcy]
          subst hcy
          exact (ih xs ys c hlt).2.2.1
        · rw [if_neg hcy]
          have h1 : min (levRec xs (y :: ys)) (min (levRec (c :: xs) ys) (levRec xs ys)) ≤
              levRec xs (y :: ys) := min_le_left _ _
          omega
    · cases xs with
      | nil => simp [levRec_nil_left]; omega
      | cons x xs =>
        have hlt : xs.length + ys.length ≤ N := by simp at h; omega
        rw [levRec_cons_cons]
        by_cases hxc : x = c
        · rw [if_pos hxc]
          subst hxc
          have hB := (ih xs ys x hlt).2.1
          omega
        · rw [if_neg hxc]
          have hB := (ih xs ys x hlt).2.1
          have hC := (ih xs ys c hlt).2.2.1
          have h1 : min (levRec xs (c :: ys)) (min (levRec (x :: xs) ys) (levRec xs ys)) ≤
              levRec (x :: xs) ys :=
            le_trans (min_le_right _ _) (min_le_left _ _)
          omega
    · cases ys with
      | nil => simp [levRec_nil_right, levRec_cons_nil]; omega
      | cons y ys =>
        have hlt : xs.length + ys.length ≤ N := by simp at h; omega
        rw [levRec_cons_cons]
        by_cases hcy : c = y
        · rw [if_pos hcy]
          subst hcy
          have hA := (ih xs ys c hlt).1
          omega
        · rw [if_neg hcy]
          have hA := (ih xs ys y hlt).1
          have hD := (ih xs ys c hlt).2.2.2
          have h1 : min (levRec xs (y :: ys)) (min (levRec (c :: xs) ys) (levRec xs ys)) ≤
              levRec xs (y :: ys) := min_le_left _ _
          omega

/-- Inserting a character at the head of the second argument raises levRec by at
most one. -/
theorem levRec_ins_le (xs ys : List Char) (c : Char) :
    levRec xs (c :: ys) ≤ levRec xs ys + 1 :=
  (levRec_adj (xs.length + ys.length) xs ys c le_rfl).1

/-- Deleting the head character of the first argument is reflected by a cost of at
most one. -/
theorem levRec_del_le (xs ys : List Char) (c : Char) :
    levRec (c :: xs) ys ≤ levRec xs ys + 1 :=
  (levRec_adj (xs.length + ys.length) xs ys c le_rfl).2.1

theorem levRec_le_ins (xs ys : List Char) (c : Char) :
    levRec xs ys ≤ levRec xs (c :: ys) + 1 :=
  (levRec_adj (xs.length + ys.length) xs ys c le_rfl).2.2.1

theorem levRec_le_del (xs ys : List Char) (c : Char) :
    levRec xs ys ≤ levRec (c :: xs) ys + 1 :=
  (levRec_adj (xs.length + ys.length) xs ys c le_rfl).2.2.2

/-- Achievability: some edit sequence of cost levRec xs ys transforms xs into ys. -/
theorem edits_levRec : ∀ (N : Nat) (xs ys : List Char), xs.length + ys.length ≤ N →
    Edits xs ys (levRec xs ys) := by
  intro N
  induction N with
  | zero =>
    intro xs ys h
    have hx : xs = [] := by cases xs <;> simp_all
    have hy : ys = [] := by cases ys <;> simp_all
    subst hx; subst hy
    simpa [levRec_nil_left] using Edits.nil
  | succ N ih =>
    intro xs ys h
    cases xs with
    | nil =>
      rw [levRec_nil_left]
      clear h
      induction ys with
      | nil => exact Edits.nil
      | cons y ys ihy => exact Edits.ins y ihy
    | cons x xs =>
      cases ys with
      | nil =>
        rw [levRec_cons_nil]
        have hlt : xs.length + ([] : List Char).length ≤ N := by simp at h ⊢; omega
        have hx := ih xs [] hlt
        rw [levRec_nil_right] at hx
        exact Edits.del x hx
      | cons y ys =>
        rw [levRec_cons_cons]
        by_cases hxy : x = y
        · rw [if_pos hxy]
          subst hxy
          exact Edits.same x (ih xs ys (by simp at h; omega))
        · rw [if_neg hxy]
          rcases min_choice (levRec xs (y :: ys))
              (min (levRec (x :: xs) ys) (levRec xs ys)) with h1 | h1
          · rw [h1, Nat.add_comm]
            exact Edits.del x (ih xs (y :: ys)
              (by simp only [List.length_cons] at h ⊢; omega))
          · rw [h1]
            rcases min_choice (levRec (x :: xs) ys) (levRec xs ys) with h2 | h2
            · rw [h2, Nat.add_comm]
              exact Edits.ins y (ih (x :: xs) ys
                (by simp only [List.length_cons] at h ⊢; omega))
            · rw [h2, Nat.add_comm]
              exact Edits.sub hxy (ih xs ys (by simp at h; omega))

/-- Optimality: levRec is a lower bound on the cost of every edit sequence. -/
theorem levRec_le_edits {xs ys : List Char} {n : Nat} (h : Edits xs ys n) :
    levRec xs ys ≤ n := by
  induction h with
  | nil => simp [levRec_nil_left]
  | same c _ ih => rw [levRec_cons_cons]; simp [ih]
  | sub hcd _ ih =>
    rw [levRec_cons_cons, if_neg hcd]
    omega
  | ins d _ ih =>
    calc levRec _ (d :: _) ≤ levRec _ _ + 1 := levRec_ins_le _ _ _
    _ ≤ _ + 1 := by omega
  | del c _ ih =>
    calc levRec (c :: _) _ ≤ levRec _ _ + 1 := levRec_del_le _ _ _
    _ ≤ _ + 1 := by omega

theorem Edits.snoc_same {xs ys : List Char} {n : Nat} (h : Edits xs ys n) (c : Char) :
    Edits (xs ++ [c]) (ys ++ [c]) n := by
  induction h with
  | nil => exact Edits.same c Edits.nil
  | same b _ ih => exact Edits.same b ih
  | sub hbd _ ih => exact Edits.sub hbd ih
  | ins d _ ih => exact Edits.ins d ih
  | del b _ ih => exact Edits.del b ih

theorem Edits.snoc_sub {xs ys : List Char} {n : Nat} (h : Edits xs ys n) {c d : Char}
    (hcd : c ≠ d) : Edits (xs ++ [c]) (ys ++ [d]) (n + 1) := by
  induction h with
  | nil => exact Edits.sub hcd Edits.nil
  | same b _ ih => exact Edits.same b ih
  | sub hbd _ ih => exact Edits.sub hbd ih
  | ins e _ ih => exact Edits.ins e ih
  | del b _ ih => exact Edits.del b ih

theorem Edits.snoc_ins {xs ys : List Char} {n : Nat} (h : Edits xs ys n) (d : Char) :
    Edits xs (ys ++ [d]) (n + 1) := by
  induction h with
  | nil => exact Edits.ins d Edits.nil
  | same b _ ih => exact Edits.same b ih
  | sub hbd _ ih => exact Edits.sub hbd ih
  | ins e _ ih => exact Edits.ins e ih
  | del b _ ih => exact Edits.del b ih

theorem Edits.snoc_del {xs ys : List Char} {n : Nat} (h : Edits xs ys n) (c : Char) :
    Edits (xs ++ [c]) ys (n + 1) := by
  induction h with
  | nil => exact Edits.del c Edits.nil
  | same b _ ih => exact Edits.same b ih
  | sub hbd _ ih => exact Edits.sub hbd ih
  | ins e _ ih => exact Edits.ins e ih
  | del b _ ih => exact Edits.del b ih

/-- Edit sequences are preserved by reversing both strings. -/
theorem Edits.rev {xs ys : List Char} {n : Nat} (h : Edits xs ys n) :
    Edits xs.reverse ys.reverse n := by
  induction h with
  | nil => exact Edits.nil
  | same b _ ih => simpa using ih.snoc_same b
  | sub hbd _ ih => simpa using ih.snoc_sub hbd
  | ins e _ ih => simpa using ih.snoc_ins e
  | del b _ ih => simpa using ih.snoc_del b

/-- Edit sequences are preserved by swapping source and target. -/
theorem Edits.swap {xs ys : List Char} {n : Nat} (h : Edits xs ys n) :
    Edits ys xs n := by
  induction h with
  | nil => exact Edits.nil
  | same b _ ih => exact Edits.same b ih
  | sub hbd _ ih => exact Edits.sub (Ne.symm hbd) ih
  | ins e _ ih => exact Edits.del e ih
  | del b _ ih => exact Edits.ins b ih

theorem levRec_reverse (a b : List Char) : levRec a.reverse b.reverse = levRec a b := by
  apply Nat.le_antisymm
  · exact levRec_le_edits ((edits_levRec (a.length + b.length) a b le_rfl).rev)
  · have h := (edits_levRec (a.reverse.length + b.reverse.length) a.reverse b.reverse le_rfl).rev
    simpa using levRec_le_edits h

theorem levRec_symm (a b : List Char) : levRec a b = levRec b a :=
  Nat.le_antisymm (levRec_le_edits (edits_levRec (b.length + a.length) b a le_rfl).swap)
    (levRec_le_edits (edits_levRec (a.length + b.length) a b le_rfl).swap)

theorem levRec_self : ∀ (s : List Char), levRec s s = 0 := by
  intro s
  induction s with
  | nil => simp [levRec_nil_left]
  | cons c s ih => rw [levRec_cons_cons, if_pos rfl]; exact ih

/-- The cells of one matrix row, from the column reached so far to the last column.
The argument r is the reversed prefix of b processed so far, q the reversed prefix
of a up to the current column, and the list argument the remaining characters of a. -/
def rowGen (r q : List Char) : List Char → List Nat
  | [] => [levRec q r]
  | c :: cs => levRec q r :: rowGen r (c :: q) cs

theorem rowGen_ne_nil (r q rest : List Char) : rowGen r q rest ≠ [] := by
  cases rest <;> simp [rowGen]

theorem rowGen_headD (r q rest : List Char) : (rowGen r q rest).headD 0 = levRec q r := by
  cases rest <;> simp [rowGen]

/-- The initial matrix row (prefix distances against the empty prefix of b) is a
range of consecutive numbers. -/
theorem rowGen_empty : ∀ (rest q : List Char),
    rowGen [] q rest = List.range' q.length (rest.length + 1) := by
  intro rest
  induction rest with
  | nil => intro q; simp [rowGen, levRec_nil_right, List.range']
  | cons c cs ih =>
    intro q
    rw [rowGen, levRec_nil_right, List.range']
    have := ih (c :: q)
    simp only [List.length_cons] at this ⊢
    rw [this]

theorem rowGen_cons_tail (r q rest : List Char) :
    rowGen r q rest = levRec q r :: (rowGen r q rest).tail := by
  cases rest <;> simp [rowGen]

/-- One inner-loop pass over a row of prefix distances for the b-prefix (reversed)
r produces the row for the b-prefix extended by bc, shifted by its first cell. -/
theorem levRowAux_rowGen (bc : Char) (r : List Char) :
    ∀ (cs q : List Char),
      levRowAux bc (levRec q (bc :: r)) cs (rowGen r q cs) = (rowGen (bc :: r) q cs).tail := by
  intro cs
  induction cs with
  | nil => intro q; simp [levRowAux, rowGen]
  | cons c cs ih =>
    intro q
    have hv : min (min (levRec q (bc :: r) + 1) (levRec (c :: q) r + 1))
        (levRec q r + (if c = bc then 0 else 1)) = levRec (c :: q) (bc :: r) := by
      rw [levRec_cons_cons]
      by_cases hcb : c = bc
      · rw [if_pos hcb, if_pos hcb]
        have h1 := levRec_le_ins q r bc
        have h2 := levRec_le_del q r c
        subst hcb
        omega
      · rw [if_neg hcb, if_neg hcb]
        omega
    simp only [rowGen, levRowAux, rowGen_headD, List.tail_cons]
    rw [hv, ih (c :: q)]
    exact (rowGen_cons_tail (bc :: r) (c :: q) cs).symm

/-- Iterating the outer loop over the remaining characters bs of b turns the row
for the reversed prefix r into the row for the full reversed prefix. -/
theorem levRows_rowGen (a : List Char) :
    ∀ (bs r : List Char),
      levRows a bs r.length (rowGen r [] a) = rowGen (bs.reverse ++ r) [] a := by
  intro bs
  induction bs with
  | nil => intro r; simp [levRows]
  | cons bc bs ih =>
    intro r
    rw [levRows]
    have hstart : r.length + 1 = levRec [] (bc :: r) := by simp [levRec_nil_left]
    have hrow : (r.length + 1) :: levRowAux bc (r.length + 1) a (rowGen r [] a) =
        rowGen (bc :: r) [] a := by
      rw [hstart, levRowAux_rowGen bc r a []]
      exact (rowGen_cons_tail (bc :: r) [] a).symm
    rw [hrow]
    have h2 := ih (bc :: r)
    simp only [List.length_cons] at h2
    rw [h2]
    simp [List.reverse_cons, List.append_assoc]

theorem rowGen_getLast? (r : List Char) :
    ∀ (rest q : List Char),
      (rowGen r q rest).getLast? = some (levRec (rest.reverse ++ q) r) := by
  intro rest
  induction rest with
  | nil => intro q; simp [rowGen]
  | cons c cs ih =>
    intro q
    rw [rowGen, rowGen_cons_tail r (c :: q) cs, List.getLast?_cons_cons,
      ← rowGen_cons_tail r (c :: q) cs, ih (c :: q)]
    simp [List.reverse_cons, List.append_assoc]

/-- The embedded DP computes the reference recursion. -/
theorem levenshteinDistance_eq_levRec (a b : List Char) :
    levenshteinDistance a b = levRec a b := by
  unfold levenshteinDistance
  have h0 : List.range (a.length + 1) = rowGen [] [] a := by
    rw [rowGen_empty a []]
    simp [List.range_eq_range']
  rw [h0]
  have h1 := levRows_rowGen a b []
  simp only [List.length_nil, List.append_nil] at h1
  rw [h1]
  have h2 := rowGen_getLast? b.reverse a []
  simp only [List.append_nil] at h2
  rw [List.getLastD_eq_getLast?, h2]
  simpa using levRec_reverse a b

/-- C4: for all strings a and b, levenshteinDistance(a, b) is exactly the minimum
number of single-character insertions, deletions and substitutions transforming a
into b (some edit sequence achieves the value and no edit sequence beats it); the
function is total, and on an empty first string it returns the length of the
second. -/
theorem levenshteinDistance_min_edits (a b : List Char) :
    Edits a b (levenshteinDistance a b) ∧
    (∀ n, Edits a b n → levenshteinDistance a b ≤ n) ∧
    levenshteinDistance [] b = b.length := by
  refine ⟨?_, ?_, ?_⟩
  · rw [levenshteinDistance_eq_levRec]
    exact edits_levRec (a.length + b.length) a b le_rfl
  · intro n h
    rw [levenshteinDistance_eq_levRec]
    exact levRec_le_edits h
  · rw [levenshteinDistance_eq_levRec, levRec_nil_left]

theorem levenshteinDistance_min_edits_witness :
    Edits ['a', 'b'] ['b'] 1 ∧ levenshteinDistance ['a', 'b'] ['b'] ≤ 1 := by
  have h : Edits ['a', 'b'] ['b'] 1 := Edits.del 'a' (Edits.same 'b' Edits.nil)
  exact ⟨h, (levenshteinDistance_min_edits ['a', 'b'] ['b']).2.1 1 h⟩

/-- C7: levenshteinDistance is zero on identical strings and symmetric in its two
arguments; distance from the empty string to abc is 3 and from kitten to sitting
is 3. -/
theorem levenshteinDistance_algebraic :
    (∀ s : List Char, levenshteinDistance s s = 0) ∧
    (∀ a b : List Char, levenshteinDistance a b = levenshteinDistance b a) ∧
    levenshteinDistance [] ['a', 'b', 'c'] = 3 ∧
    levenshteinDistance ['k', 'i', 't', 't', 'e', 'n']
      ['s', 'i', 't', 't', 'i', 'n', 'g'] = 3 := by
  refine ⟨?_, ?_, by decide, by decide⟩
  · intro s
    rw [levenshteinDistance_eq_levRec]
    exact levRec_self s
  · intro a b
    rw [levenshteinDistance_eq_levRec, levenshteinDistance_eq_levRec]
    exact levRec_symm a b

/-- A game record returned by the external metadata API.  Only the fields the
resolver reads are modelled: name (used by the Match Selector) and slug (used by
the adapter and by the idempotence property). -/
structure Game where
  name : List Char
  slug : List Char
  deriving DecidableEq

/-- JS String.prototype.toLowerCase, modelled character-wise. -/
def toLowerCase (s : List Char) : List Char := s.map Char.toLower

/-- findBestMatch(targetTitle, results), embedded from source lines 1002-1023.
The guard covers results.length === 0 (a null results value is not modelled: the
only caller passes the array searchResult.games).  JS Array.prototype.sort with
comparator (a, b) => a.score - b.score is a stable ascending comparison sort
(ES2019), modelled by the stable insertionSort on the score component.  The
accept test score < targetTitle.length / 2 uses JS real division, which on
integers is equivalent to 2 * score < targetTitle.length. -/
def findBestMatch (targetTitle : List Char) (results : List Game) : Option Game :=
  if results.length = 0 then none
  else
    let normalizedTarget := toLowerCase targetTitle
    match results.find? (fun game => toLowerCase game.name == normalizedTarget) with
    | some exactMatch => some exactMatch
    | none =>
      let scoredResults :=
        (results.map (fun game =>
          (game, levenshteinDistance normalizedTarget (toLowerCase game.name)))).insertionSort
          (fun x y => x.2 ≤ y.2)
      match scoredResults with
      | [] => none
      | best :: _ => if 2 * best.2 < targetTitle.length then some best.1 else none

/-- A candidate whose lowercased name equals the lowercased target. -/
def isExactMatch (targetTitle : List Char) (game : Game) : Prop :=
  toLowerCase game.name = toLowerCase targetTitle

instance (t : List Char) (g : Game) : Decidable (isExactMatch t g) := by
  unfold isExactMatch
  infer_instance

/-- Levenshtein distance of a candidate name from the target, both lowercased,
as computed by findBestMatch. -/
def matchScore (targetTitle : List Char) (game : Game) : Nat :=
  levenshteinDistance (toLowerCase targetTitle) (toLowerCase game.name)

/-- The minimum score over a candidate list (0 if the list is empty). -/
def minMatchScore (targetTitle : List Char) (results : List Game) : Nat :=
  ((results.map (matchScore targetTitle)).min?).getD 0


/-- C1: findBestMatch returns null on an empty list; otherwise the first
candidate whose lowercased name equals the lowercased target, regardless of any
closer candidate by edit distance; otherwise a candidate attaining the minimum
Levenshtein distance to the lowercased target if and only if twice that minimum
is below targetTitle.length (the JS test score < targetTitle.length / 2 with real
division), and null otherwise. -/
theorem findBestMatch_spec (t : List Char) (rs : List Game) :
    (rs = [] → findBestMatch t rs = none) ∧
    (∀ l₁ g l₂, rs = l₁ ++ g :: l₂ → isExactMatch t g →
      (∀ g2 ∈ l₁, ¬ isExactMatch t g2) → findBestMatch t rs = some g) ∧
    (rs ≠ [] → (∀ g ∈ rs, ¬ isExactMatch t g) →
      ((2 * minMatchScore t rs < t.length →
          ∃ g, findBestMatch t rs = some g ∧ g ∈ rs ∧ matchScore t g = minMatchScore t rs) ∧
        (¬ 2 * minMatchScore t rs < t.length → findBestMatch t rs = none))) := by
  refine ⟨?_, ?_, ?_⟩
  · intro h
    subst h
    rfl
  · intro l₁ g l₂ hrs hex hbefore
    have hne : ¬ rs.length = 0 := by subst hrs; simp
    have hfind : rs.find? (fun game => toLowerCase game.name == toLowerCase t) = some g := by
      rw [List.find?_eq_some]
      refine ⟨by simpa [isExactMatch] using hex, l₁, l₂, hrs, ?_⟩
      intro a ha
      simpa [isExactMatch] using hbefore a ha
    simp only [findBestMatch, if_neg hne, hfind]
  · intro hne hnoexact
    have hlen : ¬ rs.length = 0 := fun h0 => hne (List.length_eq_zero.mp h0)
    have hfind : rs.find? (fun game => toLowerCase game.name == toLowerCase t) = none := by
      rw [List.find?_eq_none]
      intro x hx
      simpa [isExactMatch] using hnoexact x hx
    haveI : IsTotal (Game × Nat) (fun x y => x.2 ≤ y.2) := ⟨fun a b => Nat.le_total a.2 b.2⟩
    haveI : IsTrans (Game × Nat) (fun x y => x.2 ≤ y.2) :=
      ⟨fun _ _ _ hab hbc => le_trans hab hbc⟩
    have hperm := List.perm_insertionSort (fun x y : Game × Nat => x.2 ≤ y.2)
      (rs.map (fun game => (game, levenshteinDistance (toLowerCase t) (toLowerCase game.name))))
    have hsorted := List.sorted_insertionSort (fun x y : Game × Nat => x.2 ≤ y.2)
      (rs.map (fun game => (game, levenshteinDistance (toLowerCase t) (toLowerCase game.name))))
    cases hs : (rs.map (fun game =>
        (game, levenshteinDistance (toLowerCase t) (toLowerCase game.name)))).insertionSort
        (fun x y => x.2 ≤ y.2) with
    | nil =>
      exfalso
      rw [hs] at hperm
      have hl := hperm.length_eq
      simp only [List.length_nil, List.length_map] at hl
      exact hlen (by omega)
    | cons best rest =>
      rw [hs] at hperm hsorted
      have hbestmem : best ∈ rs.map (fun game =>
          (game, levenshteinDistance (toLowerCase t) (toLowerCase game.name))) :=
        hperm.mem_iff.mp (by simp)
      obtain ⟨g0, hg0, hg0eq⟩ := List.mem_map.mp hbestmem
      have hmin : ∀ p ∈ rs.map (fun game =>
          (game, levenshteinDistance (toLowerCase t) (toLowerCase game.name))),
          best.2 ≤ p.2 := by
        intro p hp
        rcases List.mem_cons.mp (hperm.mem_iff.mpr hp) with hph | hpr
        · subst hph
          exact le_rfl
        · exact (List.sorted_cons.mp hsorted).1 p hpr
      have hmins : (rs.map (matchScore t)).min? = some best.2 := by
        rw [List.min?_eq_some_iff (fun a => le_refl a) (fun a b => min_choice a b)
          (fun a b c => le_min_iff)]
        constructor
        · refine List.mem_map.mpr ⟨g0, hg0, ?_⟩
          rw [← hg0eq]
          rfl
        · intro v hv
          obtain ⟨g1, hg1, hg1eq⟩ := List.mem_map.mp hv
          have := hmin (g1, levenshteinDistance (toLowerCase t) (toLowerCase g1.name))
            (List.mem_map.mpr ⟨g1, hg1, rfl⟩)
          subst hg1eq
          exact this
      have hmms : minMatchScore t rs = best.2 := by
        rw [minMatchScore, hmins]
        rfl
      have heval : findBestMatch t rs =
          if 2 * best.2 < t.length then some best.1 else none := by
        simp only [findBestMatch, if_neg hlen, hfind, hs]
      constructor
      · intro hth
        rw [hmms] at hth
        refine ⟨best.1, ?_, ?_, ?_⟩
        · rw [heval, if_pos hth]
        · rw [← hg0eq]
          exact hg0
        · rw [hmms, ← hg0eq]
          rfl
      · intro hth
        rw [hmms] at hth
        rw [heval, if_neg hth]

theorem findBestMatch_spec_witness :
    findBestMatch ['a', 'b'] [⟨['c', 'd'], []⟩, ⟨['A', 'b'], []⟩] =
      some ⟨['A', 'b'], []⟩ :=
  (findBestMatch_spec ['a', 'b'] [⟨['c', 'd'], []⟩, ⟨['A', 'b'], []⟩]).2.1
    [⟨['c', 'd'], []⟩] ⟨['A', 'b'], []⟩ [] rfl (by decide) (by decide)

/-- C9: whenever findBestMatch returns a record, that record is an element of the
candidate list passed to it; it never builds a fresh record. -/
theorem findBestMatch_mem (t : List Char) (rs : List Game) (g : Game)
    (h : findBestMatch t rs = some g) : g ∈ rs := by
  rw [findBestMatch] at h
  by_cases hlen : rs.length = 0
  · rw [if_pos hlen] at h
    cases h
  · rw [if_neg hlen] at h
    simp only at h
    cases hf : rs.find? (fun game => toLowerCase game.name == toLowerCase t) with
    | some e =>
      rw [hf] at h
      simp only [Option.some.injEq] at h
      subst h
      exact List.mem_of_find?_eq_some hf
    | none =>
      rw [hf] at h
      simp only at h
      cases hs : (rs.map (fun game =>
          (game, levenshteinDistance (toLowerCase t) (toLowerCase game.name)))).insertionSort
          (fun x y => x.2 ≤ y.2) with
      | nil =>
        rw [hs] at h
        have h2 : (none : Option Game) = some g := h
        cases h2
      | cons best rest =>
        rw [hs] at h
        have h2 : (if 2 * best.2 < t.length then some best.1 else none) = some g := h
        by_cases hth : 2 * best.2 < t.length
        · rw [if_pos hth] at h2
          simp only [Option.some.injEq] at h2
          subst h2
          have hperm := List.perm_insertionSort (fun x y : Game × Nat => x.2 ≤ y.2)
            (rs.map (fun game =>
              (game, levenshteinDistance (toLowerCase t) (toLowerCase game.name))))
          rw [hs] at hperm
          have hbestmem := hperm.mem_iff.mp (List.mem_cons_self best rest)
          obtain ⟨g0, hg0, hg0eq⟩ := List.mem_map.mp hbestmem
          rw [← hg0eq]
          exact hg0
        · rw [if_neg hth] at h2
          cases h2

theorem findBestMatch_mem_witness :
    (⟨['a'], ['s']⟩ : Game) ∈ [(⟨['a'], ['s']⟩ : Game)] :=
  findBestMatch_mem ['a'] [⟨['a'], ['s']⟩] ⟨['a'], ['s']⟩ (by decide)

/-- A curated entry: a hand-picked title and slug pair. -/
structure CuratedEntry where
  title : List Char
  slug : List Char
  deriving DecidableEq

/-- A genre tab token (a genre name string). -/
abbrev Genre := List Char

/-- Result object of fetchCuratedGameData: status found carries the record, the
other two statuses carry data null. -/
inductive ResolutionResult where
  | found (data : Game)
  | not_found
  | aborted
  deriving DecidableEq

/-- The status tag alone of a resolution result. -/
inductive FetchStatus where
  | found
  | not_found
  | aborted
  deriving DecidableEq

def ResolutionResult.status : ResolutionResult → FetchStatus
  | .found _ => .found
  | .not_found => .not_found
  | .aborted => .aborted

/-- data.slug of a resolution result, none when data is null. -/
def ResolutionResult.dataSlug : ResolutionResult → Option (List Char)
  | .found d => some d.slug
  | _ => none

/-- The environment one run of fetchCuratedGameData executes against: the outcome
of each of the two network calls (Except.error models a thrown fetch, Except.ok
the resolved value; getGameDetails resolves to an object or throws, the ok none
case covers a falsy resolved value which the source also guards), and the value of
this.activeCuratedTab as re-read after each of the two awaits and at the adapter
patch step. -/
structure FetchEnv where
  slugResult : Except Unit (Option Game)
  tabAfterSlug : Genre
  searchResult : Except Unit (List Game)
  tabAfterSearch : Genre
  tabAtPatch : Genre

/-- Observable outcome of one fetchCuratedGameData run: its returned result, the
placeholder mutation of stage 2 (the Searching... innerHTML write, performed when
the placeholder element exists), and how many search requests were issued. -/
structure FetchOutcome where
  result : ResolutionResult
  searchingShown : Bool
  searchCalls : Nat
  slugCalls : Nat
  deriving DecidableEq

/-- Stages 2 to 4 of fetchCuratedGameData (source lines 973-993): mutate the
placeholder to the searching state, issue the title search, re-check the active
tab, run findBestMatch, and fall through to not_found. -/
def fetchStage2 (gameObject : CuratedEntry) (currentGenre : Genre) (env : FetchEnv)
    (placeholderPresent : Bool) : FetchOutcome :=
  let searchingShown := placeholderPresent
  match env.searchResult with
  | .ok games =>
    if env.tabAfterSearch ≠ currentGenre then ⟨.aborted, searchingShown, 1, 1⟩
    else
      match findBestMatch gameObject.title games with
      | some bestMatch => ⟨.found bestMatch, searchingShown, 1, 1⟩
      | none => ⟨.not_found, searchingShown, 1, 1⟩
  | .error _ => ⟨.not_found, searchingShown, 1, 1⟩

/-- fetchCuratedGameData(gameObject, currentGenre, placeholderId), embedded from
source lines 962-994.  Stage 1 awaits getGameDetails(gameObject.slug); if the call
throws, control jumps to stage 2 without any tab re-check; if it resolves, the tab
is re-read and compared before the truthiness check on the data. -/
def fetchCuratedGameData (gameObject : CuratedEntry) (currentGenre : Genre)
    (env : FetchEnv) (placeholderPresent : Bool) : FetchOutcome :=
  match env.slugResult with
  | .ok gameData =>
    if env.tabAfterSlug ≠ currentGenre then ⟨.aborted, false, 0, 1⟩
    else
      match gameData with
      | some d => ⟨.found d, false, 0, 1⟩
      | none => fetchStage2 gameObject currentGenre env placeholderPresent
  | .error _ => fetchStage2 gameObject currentGenre env placeholderPresent

/-- What the per-entry continuation in displayCuratedGamesForGenre (source lines
931-948) renders into the placeholder: nothing if the active tab no longer equals
the dispatched genre or the placeholder is gone; otherwise the full game card for
a found result and the Data Not Found card for any other status. -/
inductive PatchAction where
  | card (data : Game)
  | notFoundCard
  deriving DecidableEq

def adapterPatch (genre : Genre) (tabAtPatch : Genre) (placeholderPresent : Bool)
    (result : ResolutionResult) : Option PatchAction :=
  if tabAtPatch ≠ genre then none
  else if placeholderPresent then
    match result with
    | .found d => some (.card d)
    | _ => some .notFoundCard
  else none

/-- C2 counterexample: the active tab differs from the dispatched genre at every
re-read point, yet the run whose slug lookup throws and whose fallback search
also throws returns not_found rather than aborted, and the intermediate
Searching... placeholder mutation does occur (the catch path of stage 1 reaches
stage 2 with no tab re-check). -/
theorem fetchCuratedGameData_stale_cex :
    (⟨Except.error (), ['a'], Except.error (), ['a'], ['a']⟩ : FetchEnv).tabAfterSlug ≠
        (['r'] : Genre) ∧
    (⟨Except.error (), ['a'], Except.error (), ['a'], ['a']⟩ : FetchEnv).tabAfterSearch ≠
        (['r'] : Genre) ∧
    (⟨Except.error (), ['a'], Except.error (), ['a'], ['a']⟩ : FetchEnv).tabAtPatch ≠
        (['r'] : Genre) ∧
    (fetchCuratedGameData ⟨['t'], ['s']⟩ ['r']
        ⟨Except.error (), ['a'], Except.error (), ['a'], ['a']⟩ true).result ≠
      ResolutionResult.aborted ∧
    (fetchCuratedGameData ⟨['t'], ['s']⟩ ['r']
        ⟨Except.error (), ['a'], Except.error (), ['a'], ['a']⟩ true).result =
      ResolutionResult.not_found ∧
    (fetchCuratedGameData ⟨['t'], ['s']⟩ ['r']
        ⟨Except.error (), ['a'], Except.error (), ['a'], ['a']⟩ true).searchingShown = true := by
  refine ⟨by decide, by decide, by decide, by decide, rfl, rfl⟩

/-- C2 amended: when the active tab differs from the dispatched genre at both
re-read points and at patch time, the adapter patches nothing; the result is
aborted whenever either network stage resolved (rather than threw), but it is
not_found when both stages threw, and on the fallback path the intermediate
searching placeholder mutation still occurs. -/
theorem fetchCuratedGameData_cancellation (e : CuratedEntry) (g : Genre)
    (env : FetchEnv) (p : Bool)
    (h1 : env.tabAfterSlug ≠ g) (h2 : env.tabAfterSearch ≠ g) (h3 : env.tabAtPatch ≠ g) :
    adapterPatch g env.tabAtPatch p (fetchCuratedGameData e g env p).result = none ∧
    ((∃ d, env.slugResult = .ok d) ∨ (∃ gs, env.searchResult = .ok gs) →
      (fetchCuratedGameData e g env p).result = .aborted) ∧
    (env.slugResult = .error () → env.searchResult = .error () →
      (fetchCuratedGameData e g env p).result = .not_found ∧
      (fetchCuratedGameData e g env p).searchingShown = p) := by
  rcases env with ⟨sr, tas, ser, tase, tap⟩
  simp only at h1 h2 h3
  refine ⟨by simp [adapterPatch, h3], ?_, ?_⟩
  · rintro (⟨d, hd⟩ | ⟨gs, hgs⟩)
    · simp only at hd
      subst hd
      simp [fetchCuratedGameData, h1]
    · simp only at hgs
      subst hgs
      cases sr with
      | ok gd =>
        cases gd with
        | some d => simp [fetchCuratedGameData, h1]
        | none => simp [fetchCuratedGameData, fetchStage2, h1, h2]
      | error u => simp [fetchCuratedGameData, fetchStage2, h2]
  · intro hsr hser
    simp only at hsr hser
    subst hsr
    subst hser
    simp [fetchCuratedGameData, fetchStage2]

theorem fetchCuratedGameData_cancellation_witness :
    adapterPatch ['r'] ['a'] true (fetchCuratedGameData ⟨['t'], ['s']⟩ ['r']
      ⟨.ok (some ⟨['t'], ['s']⟩), ['a'], .error (), ['a'], ['a']⟩ true).result = none ∧
    (fetchCuratedGameData ⟨['t'], ['s']⟩ ['r']
      ⟨.ok (some ⟨['t'], ['s']⟩), ['a'], .error (), ['a'], ['a']⟩ true).result = .aborted := by
  have h := fetchCuratedGameData_cancellation ⟨['t'], ['s']⟩ ['r']
    ⟨.ok (some ⟨['t'], ['s']⟩), ['a'], .error (), ['a'], ['a']⟩ true
    (by decide) (by decide) (by decide)
  exact ⟨h.1, h.2.1 (Or.inl ⟨some ⟨['t'], ['s']⟩, rfl⟩)⟩

/-- C3: with the active tab unchanged at both re-read points, one run issues
exactly one slug lookup and at most one search, a slug lookup resolving to a
record terminates as found with that record and no search, a thrown slug lookup
issues exactly one search whose resolved candidate list is decided by
findBestMatch (found with the selected record, else not_found), and a thrown
search terminates as not_found. -/
theorem fetchCuratedGameData_state_machine (e : CuratedEntry) (g : Genre)
    (env : FetchEnv) (p : Bool)
    (h1 : env.tabAfterSlug = g) (h2 : env.tabAfterSearch = g) :
    (fetchCuratedGameData e g env p).slugCalls = 1 ∧
    (fetchCuratedGameData e g env p).searchCalls ≤ 1 ∧
    (∀ d, env.slugResult = .ok (some d) →
      fetchCuratedGameData e g env p = ⟨.found d, false, 0, 1⟩) ∧
    (env.slugResult = .error () →
      (fetchCuratedGameData e g env p).searchCalls = 1 ∧
      (∀ gs, env.searchResult = .ok gs →
        (fetchCuratedGameData e g env p).result =
          (match findBestMatch e.title gs with
            | some m => .found m
            | none => .not_found)) ∧
      (env.searchResult = .error () →
        (fetchCuratedGameData e g env p).result = .not_found)) := by
  rcases env with ⟨sr, tas, ser, tase, tap⟩
  simp only at h1 h2
  subst h1
  subst h2
  refine ⟨?_, ?_, ?_, ?_⟩
  · cases sr with
    | ok gd =>
      cases gd with
      | some d => simp [fetchCuratedGameData]
      | none => cases ser <;> (simp [fetchCuratedGameData, fetchStage2]; try (split <;> rfl))
    | error u => cases ser <;> (simp [fetchCuratedGameData, fetchStage2]; try (split <;> rfl))
  · cases sr with
    | ok gd =>
      cases gd with
      | some d => simp [fetchCuratedGameData]
      | none => cases ser <;> (simp [fetchCuratedGameData, fetchStage2]; try (split <;> rfl))
    | error u => cases ser <;> (simp [fetchCuratedGameData, fetchStage2]; try (split <;> rfl))
  · intro d hd
    simp only at hd
    subst hd
    simp [fetchCuratedGameData]
  · intro hsr
    simp only at hsr
    subst hsr
    refine ⟨by cases ser <;> (simp [fetchCuratedGameData, fetchStage2]; try (split <;> rfl)), ?_, ?_⟩
    · intro gs hgs
      simp only at hgs
      subst hgs
      simp [fetchCuratedGameData, fetchStage2]
      cases findBestMatch e.title gs <;> simp
    · intro hser
      simp only at hser
      subst hser
      simp [fetchCuratedGameData, fetchStage2]

theorem fetchCuratedGameData_state_machine_witness :
    fetchCuratedGameData ⟨['t'], ['s']⟩ ['r']
      ⟨.ok (some ⟨['n'], ['s']⟩), ['r'], .error (), ['r'], ['r']⟩ true =
      ⟨.found ⟨['n'], ['s']⟩, false, 0, 1⟩ :=
  (fetchCuratedGameData_state_machine ⟨['t'], ['s']⟩ ['r']
    ⟨.ok (some ⟨['n'], ['s']⟩), ['r'], .error (), ['r'], ['r']⟩ true rfl rfl).2.2.1
    ⟨['n'], ['s']⟩ rfl

/-- C6: resolution is a deterministic function of its inputs: two runs of
fetchCuratedGameData for the same entry against equal network stage outcomes,
with the active tab unchanged in both runs, produce the same status and the same
data.slug, whatever the placeholder situation of each run. -/
theorem fetchCuratedGameData_deterministic (e : CuratedEntry) (g : Genre)
    (env1 env2 : FetchEnv) (p1 p2 : Bool)
    (hs : env1.slugResult = env2.slugResult)
    (hr : env1.searchResult = env2.searchResult)
    (h1 : env1.tabAfterSlug = g) (h2 : env1.tabAfterSearch = g)
    (h3 : env2.tabAfterSlug = g) (h4 : env2.tabAfterSearch = g) :
    (fetchCuratedGameData e g env1 p1).result.status =
      (fetchCuratedGameData e g env2 p2).result.status ∧
    (fetchCuratedGameData e g env1 p1).result.dataSlug =
      (fetchCuratedGameData e g env2 p2).result.dataSlug := by
  rcases env1 with ⟨sr1, a1, se1, b1, c1⟩
  rcases env2 with ⟨sr2, a2, se2, b2, c2⟩
  simp only at hs hr h1 h2 h3 h4
  subst hs; subst hr; subst h1; subst h2; subst h3; subst h4
  cases sr1 with
  | ok gd =>
    cases gd with
    | some d => simp [fetchCuratedGameData]
    | none =>
      cases se1 with
      | ok gs =>
        simp [fetchCuratedGameData, fetchStage2]
        cases findBestMatch e.title gs <;> simp
      | error u => simp [fetchCuratedGameData, fetchStage2]
  | error u =>
    cases se1 with
    | ok gs =>
      simp [fetchCuratedGameData, fetchStage2]
      cases findBestMatch e.title gs <;> simp
    | error v => simp [fetchCuratedGameData, fetchStage2]

theorem fetchCuratedGameData_deterministic_witness :
    (fetchCuratedGameData ⟨['t'], ['s']⟩ ['r']
        ⟨.error (), ['r'], .ok [⟨['t'], ['q']⟩], ['r'], ['r']⟩ true).result.status =
      (fetchCuratedGameData ⟨['t'], ['s']⟩ ['r']
        ⟨.error (), ['r'], .ok [⟨['t'], ['q']⟩], ['r'], ['r']⟩ false).result.status :=
  (fetchCuratedGameData_deterministic ⟨['t'], ['s']⟩ ['r']
    ⟨.error (), ['r'], .ok [⟨['t'], ['q']⟩], ['r'], ['r']⟩
    ⟨.error (), ['r'], .ok [⟨['t'], ['q']⟩], ['r'], ['r']⟩ true false
    rfl rfl rfl rfl rfl rfl).1

/-- Page size of the curated section (this.gamesPerPage, source line 45). -/
def gamesPerPage : Nat := 8

/-- The slice of a genre's curated list shown on one page, embedded from source
lines 921-923: startIndex = (page - 1) * gamesPerPage, endIndex = startIndex +
gamesPerPage, games.slice(startIndex, endIndex). -/
def getPage (games : List CuratedEntry) (page : Nat) : List CuratedEntry :=
  (games.drop ((page - 1) * gamesPerPage)).take gamesPerPage

/-- Total number of pages, Math.ceil(length / gamesPerPage) (source line 920). -/
def totalPages (games : List CuratedEntry) : Nat :=
  (games.length + gamesPerPage - 1) / gamesPerPage

/-- C5: page p is the slice of the curated list from index (p-1)*8 up to but
excluding p*8, in list order: its i-th element is the ((p-1)*8+i)-th element of
the list for i below 8 and nothing beyond, page 1 is the first 8 entries (or
fewer), and the last page of a nonempty list holds the remaining 1 to 8
entries. -/
theorem getPage_spec (games : List CuratedEntry) (p : Nat) (hp : 1 ≤ p) :
    ((getPage games p).length = min gamesPerPage (games.length - (p - 1) * gamesPerPage)) ∧
    (∀ i, i < gamesPerPage → (getPage games p)[i]? = games[(p - 1) * gamesPerPage + i]?) ∧
    (∀ i, ¬ i < gamesPerPage → (getPage games p)[i]? = none) ∧
    (p = 1 → getPage games p = games.take gamesPerPage) ∧
    (games ≠ [] → p = totalPages games →
      getPage games p = games.drop ((p - 1) * gamesPerPage) ∧
      1 ≤ (getPage games p).length ∧ (getPage games p).length ≤ gamesPerPage) := by
  refine ⟨?_, ?_, ?_, ?_, ?_⟩
  · rw [getPage, List.length_take, List.length_drop]
  · intro i hi
    rw [getPage, List.getElem?_take, if_pos hi, List.getElem?_drop]
  · intro i hi
    rw [getPage, List.getElem?_take, if_neg hi]
  · intro h1
    subst h1
    simp [getPage]
  · intro hne htp
    have hlen : 1 ≤ games.length := by
      cases games with
      | nil => exact absurd rfl hne
      | cons a l => simp
    have harith : games.length ≤ p * gamesPerPage ∧ (p - 1) * gamesPerPage < games.length := by
      rw [htp, totalPages, gamesPerPage]
      constructor
      · omega
      · have h8 : (games.length + 8 - 1) / 8 ≥ 1 := by omega
        have := Nat.sub_one_mul ((games.length + 8 - 1) / 8) 8
        omega
    have hdroplen : (games.drop ((p - 1) * gamesPerPage)).length ≤ gamesPerPage := by
      rw [List.length_drop]
      have hm : games.length ≤ (p - 1) * gamesPerPage + gamesPerPage := by
        have : (p - 1) * gamesPerPage + gamesPerPage = p * gamesPerPage := by
          rw [gamesPerPage] at harith ⊢
          omega
        omega
      omega
    have hslice : getPage games p = games.drop ((p - 1) * gamesPerPage) :=
      List.take_of_length_le hdroplen
    refine ⟨hslice, ?_, ?_⟩
    · rw [hslice, List.length_drop]
      omega
    · rw [hslice]
      exact hdroplen

theorem getPage_spec_witness :
    getPage [⟨['a'], ['a']⟩, ⟨['b'], ['b']⟩] 1 =
      List.take gamesPerPage [⟨['a'], ['a']⟩, ⟨['b'], ['b']⟩] :=
  (getPage_spec [⟨['a'], ['a']⟩, ⟨['b'], ['b']⟩] 1 (by decide)).2.2.2.1 rfl

/-- The curated-section UI state: this.currentPageByGenre (a partial map, no
entry until a genre was displayed) and this.activeCuratedTab. -/
structure CuratedUIState where
  pages : Genre → Option Nat
  activeTab : Genre

/-- Point update of the page map, as the assignment
this.currentPageByGenre[genre] = page (source line 903). -/
def setPage (pages : Genre → Option Nat) (g : Genre) (p : Nat) : Genre → Option Nat :=
  fun g2 => if g2 = g then some p else pages g2

/-- Modelled from the spec: the curated catalog sizes.  The bundled module
services/CuratedGames.js is not part of the sources; per the data model every
genre maps to an ordered sequence of curated entries, abstracted here by its
length. -/
def catalogTotalPages (len : Genre → Nat) (g : Genre) : Nat :=
  (len g + gamesPerPage - 1) / gamesPerPage

/-- Clicking a genre tab (source lines 883-887): set activeCuratedTab, then
display page 1 of that genre, which first assigns currentPageByGenre[g] = 1. -/
def tabClick (s : CuratedUIState) (g : Genre) : CuratedUIState :=
  ⟨setPage s.pages g 1, g⟩

/-- One UI transition of the curated section.  Previous and Next clicks exist
only for the active tab, with the page p under which the controls were rendered
stored for that genre; renderCuratedPagination emits the Previous button only
when 1 < p and the Next button only when p < totalPages (source lines
1135-1143), and each click calls displayCuratedGamesForGenre(genre, p -+ 1),
which assigns the new page to currentPageByGenre[genre]. -/
inductive UIStep (len : Genre → Nat) : CuratedUIState → CuratedUIState → Prop where
  | tab (s : CuratedUIState) (g : Genre) : UIStep len s (tabClick s g)
  | prev (s : CuratedUIState) (g : Genre) (p : Nat) (hs : s.pages g = some p)
      (ha : s.activeTab = g) (h1 : 1 < p) :
      UIStep len s ⟨setPage s.pages g (p - 1), s.activeTab⟩
  | next (s : CuratedUIState) (g : Genre) (p : Nat) (hs : s.pages g = some p)
      (ha : s.activeTab = g) (h2 : p < catalogTotalPages len g) :
      UIStep len s ⟨setPage s.pages g (p + 1), s.activeTab⟩

/-- States reachable from startup: setupCuratedSection displays page 1 of the
first genre tab (source lines 864-866), and then any sequence of tab and
pagination clicks. -/
inductive UIReachable (len : Genre → Nat) (g0 : Genre) : CuratedUIState → Prop where
  | init : UIReachable len g0 ⟨setPage (fun _ => none) g0 1, g0⟩
  | step {s t : CuratedUIState} :
      UIReachable len g0 s → UIStep len s t → UIReachable len g0 t

/-- C8: in every reachable curated-UI state, every genre with a recorded current
page satisfies 1 ≤ page ≤ ceil(curated games in that genre / 8) (provided every
genre of the catalog is nonempty), and a tab click on one genre leaves every
other genre's stored page unchanged. -/
theorem curatedPagination_invariant (len : Genre → Nat) (g0 : Genre)
    (hlen : ∀ g, 1 ≤ len g) :
    (∀ s, UIReachable len g0 s →
      ∀ g p, s.pages g = some p → 1 ≤ p ∧ p ≤ catalogTotalPages len g) ∧
    (∀ (s : CuratedUIState) (h g : Genre), g ≠ h → (tabClick s h).pages g = s.pages g) := by
  have htp : ∀ g, 1 ≤ catalogTotalPages len g := by
    intro g
    have := hlen g
    rw [catalogTotalPages, gamesPerPage]
    omega
  constructor
  · intro s hs
    induction hs with
    | init =>
      intro g p hgp
      simp only [setPage] at hgp
      by_cases hg : g = g0
      · rw [if_pos hg] at hgp
        cases hgp
        exact ⟨le_rfl, htp g⟩
      · rw [if_neg hg] at hgp
        cases hgp
    | step hr hstep ih =>
      cases hstep with
      | tab g =>
        intro g2 p hgp
        simp only [tabClick, setPage] at hgp
        by_cases hg : g2 = g
        · rw [if_pos hg] at hgp
          cases hgp
          exact ⟨le_rfl, htp g2⟩
        · rw [if_neg hg] at hgp
          exact ih g2 p hgp
      | prev g p hsg ha h1 =>
        intro g2 q hgp
        simp only [setPage] at hgp
        by_cases hg : g2 = g
        · rw [if_pos hg] at hgp
          cases hgp
          subst hg
          have := ih g2 p hsg
          omega
        · rw [if_neg hg] at hgp
          exact ih g2 q hgp
      | next g p hsg ha h2 =>
        intro g2 q hgp
        simp only [setPage] at hgp
        by_cases hg : g2 = g
        · rw [if_pos hg] at hgp
          cases hgp
          subst hg
          have := ih g2 p hsg
          omega
        · rw [if_neg hg] at hgp
          exact ih g2 q hgp
  · intro s h g hgh
    simp only [tabClick, setPage]
    rw [if_neg hgh]

theorem curatedPagination_invariant_witness :
    1 ≤ 1 ∧ 1 ≤ catalogTotalPages (fun _ => 1) ['r'] :=
  (curatedPagination_invariant (fun _ => 1) ['r'] (fun _ => le_rfl)).1
    ⟨setPage (fun _ => none) ['r'] 1, ['r']⟩ UIReachable.init ['r'] 1
    (by simp [setPage])

/-- One entry of the in-memory search history: { query, timestamp } (source line
297). -/
structure HistoryEntry where
  query : List Char
  timestamp : Nat
  deriving DecidableEq

/-- this.config.maxHistoryItems (source line 27). -/
def maxHistoryItems : Nat := 50

/-- addToHistory(query), embedded from source lines 294-300: no-op on a falsy
(empty) query; otherwise drop entries with the same query, unshift the new entry,
and keep the first maxHistoryItems entries. -/
def addToHistory (query : List Char) (timestamp : Nat)
    (history : List HistoryEntry) : List HistoryEntry :=
  if query = [] then history
  else
    ((⟨query, timestamp⟩ : HistoryEntry) ::
      history.filter (fun item => item.query ≠ query)).take maxHistoryItems

/-- The in-memory history after a sequence of addToHistory calls, starting from
the empty history. -/
def runHistory (calls : List (List Char × Nat)) : List HistoryEntry :=
  calls.foldl (fun h c => addToHistory c.1 c.2 h) []

theorem map_query_filter (q : List Char) (l : List HistoryEntry) :
    (l.filter (fun item => item.query ≠ q)).map HistoryEntry.query =
      (l.map HistoryEntry.query).filter (fun s => s ≠ q) := by
  induction l with
  | nil => rfl
  | cons e l ih =>
    rw [List.filter_cons, List.map_cons, List.filter_cons]
    by_cases he : e.query = q
    · simpa [he] using ih
    · simp [he]
      simpa using ih

theorem addToHistory_preserves (q : List Char) (ts : Nat) (h : List HistoryEntry)
    (hlen : h.length ≤ maxHistoryItems) (hnd : (h.map HistoryEntry.query).Nodup) :
    (addToHistory q ts h).length ≤ maxHistoryItems ∧
    ((addToHistory q ts h).map HistoryEntry.query).Nodup := by
  rw [addToHistory]
  by_cases hq : q = []
  · rw [if_pos hq]
    exact ⟨hlen, hnd⟩
  · rw [if_neg hq]
    constructor
    · rw [List.length_take]
      omega
    · have hfilter := map_query_filter q h
      have hnd2 : ((⟨q, ts⟩ : HistoryEntry) ::
          h.filter (fun item => item.query ≠ q)).map HistoryEntry.query |>.Nodup := by
        rw [List.map_cons, List.nodup_cons]
        constructor
        · rw [hfilter]
          intro hmem
          have := List.of_mem_filter hmem
          simp at this
        · rw [hfilter]
          exact hnd.filter _
      have hsub : (((⟨q, ts⟩ : HistoryEntry) ::
          h.filter (fun item => item.query ≠ q)).take maxHistoryItems).map
            HistoryEntry.query |>.Sublist
          (((⟨q, ts⟩ : HistoryEntry) ::
            h.filter (fun item => item.query ≠ q)).map HistoryEntry.query) := by
        rw [List.map_take]
        exact List.take_sublist _ _
      exact hsub.nodup hnd2

/-- C10: after any sequence of addToHistory calls the in-memory history holds at
most 50 entries and no two entries share a query; and any addToHistory call with
a nonempty query puts that query at the front (so after a sequence ending in a
nonempty-query call, the most recently added query is first). -/
theorem searchHistory_invariant (calls : List (List Char × Nat)) :
    (runHistory calls).length ≤ maxHistoryItems ∧
    ((runHistory calls).map HistoryEntry.query).Nodup ∧
    (∀ q ts h, q ≠ [] → (addToHistory q ts h).head? = some ⟨q, ts⟩) := by
  refine ⟨?_, ?_, ?_⟩
  · have : ∀ (cs : List (List Char × Nat)) (h : List HistoryEntry),
        h.length ≤ maxHistoryItems → (h.map HistoryEntry.query).Nodup →
        ((cs.foldl (fun h c => addToHistory c.1 c.2 h) h).length ≤ maxHistoryItems ∧
         ((cs.foldl (fun h c => addToHistory c.1 c.2 h) h).map HistoryEntry.query).Nodup) := by
      intro cs
      induction cs with
      | nil => intro h h1 h2; exact ⟨h1, h2⟩
      | cons c cs ih =>
        intro h h1 h2
        have hp := addToHistory_preserves c.1 c.2 h h1 h2
        exact ih (addToHistory c.1 c.2 h) hp.1 hp.2
    exact (this calls [] (by simp [maxHistoryItems]) (by simp)).1
  · have : ∀ (cs : List (List Char × Nat)) (h : List HistoryEntry),
        h.length ≤ maxHistoryItems → (h.map HistoryEntry.query).Nodup →
        ((cs.foldl (fun h c => addToHistory c.1 c.2 h) h).length ≤ maxHistoryItems ∧
         ((cs.foldl (fun h c => addToHistory c.1 c.2 h) h).map HistoryEntry.query).Nodup) := by
      intro cs
      induction cs with
      | nil => intro h h1 h2; exact ⟨h1, h2⟩
      | cons c cs ih =>
        intro h h1 h2
        have hp := addToHistory_preserves c.1 c.2 h h1 h2
        exact ih (addToHistory c.1 c.2 h) hp.1 hp.2
    exact (this calls [] (by simp [maxHistoryItems]) (by simp)).2
  · intro q ts h hq
    rw [addToHistory, if_neg hq]
    rw [maxHistoryItems]
    rfl

theorem searchHistory_invariant_witness :
    (addToHistory ['b'] 2 (runHistory [(['a'], 1)])).head? = some ⟨['b'], 2⟩ :=
  (searchHistory_invariant [(['a'], 1)]).2.2 ['b'] 2 (runHistory [(['a'], 1)])
    (by decide)
